import Mathlib

/-!
Verification of the `generate-toc` exclusion-rule engine and tree builder.

The JavaScript source is shallowly embedded: JS strings are `List Char`
(`Str`), JS arrays are Lean lists, the mutable `Map` of tree children is an
association list with JS `Map` insertion-order semantics, and the recursive
directory walk is a pure fold threading the root node.  Glob patterns are
compiled to a small matcher item language mirroring the regexes produced by
the `globToRegExp` standard-library call used by the source.
-/

namespace GenToc

/-- JS strings, embedded as lists of characters. -/
abbrev Str := List Char

/-- JS `s.split(sep)` for a single-character separator: always returns a
non-empty list of pieces; `"".split(sep) = [""]`. -/
def splitOnChar (sep : Char) : Str → List Str
  | [] => [[]]
  | c :: rest =>
    match splitOnChar sep rest with
    | [] => [[]]
    | p :: ps => if c = sep then [] :: p :: ps else (c :: p) :: ps

/-- JS `pieces.join(sep)` for a single-character separator. -/
def jsJoin (sep : Char) : List Str → Str
  | [] => []
  | [p] => p
  | p :: q :: ps => p ++ sep :: jsJoin sep (q :: ps)

/-- JS `s.trim()`: strip whitespace from both ends. -/
def jsTrim (s : Str) : Str :=
  ((s.dropWhile Char.isWhitespace).reverse.dropWhile Char.isWhitespace).reverse

/-- Boolean list-prefix test: `isStart a b` holds when `a` is a prefix of `b`. -/
def isStart : List Str → List Str → Bool
  | [], _ => true
  | _ :: _, [] => false
  | x :: xs, y :: ys => x = y && isStart xs ys

/-! ## Glob matchers

The source compiles each glob pattern with `globToRegExp(pat, { extended:
true, globstar: true })` from the Deno path standard library, an external
dependency not part of this repository.  Modelled from the spec: §4.1 fixes
the glob language (`*` within a path segment, `**` across segments including
zero, `?` one character, `[...]` a character set, matching against
POSIX-style slash-separated paths), and the compiled form below mirrors the
regexes that library emits: segments joined by `/+` (a separator), a final
`/*` (an optional trailing separator), `*` becoming `[^/]*`, and a
segment consisting exactly of `**` becoming the globstar item
`(?:[^/]*(?:/|$)+)*`, which absorbs the following separator. -/

/-- One item of a compiled glob matcher, mirroring the pieces of the regex
produced for a glob pattern. -/
inductive GlobPart : Type where
  /-- a literal character -/
  | lit (c : Char)
  /-- `[^/]*`, from a `*` wildcard -/
  | wildcard
  /-- `.`, from a `?` wildcard -/
  | anyChar
  /-- `[...]` character set; `neg` is true for `[!...]` -/
  | cls (neg : Bool) (body : List Char)
  /-- `/+`: the separator between two compiled segments -/
  | sep
  /-- `/*`: the optional separator run after the final segment -/
  | sepMaybe
  /-- `(?:[^/]*(?:/|$)+)*`: a whole-segment `**` with globstar enabled -/
  | globstar
  /-- the never-matching pattern compiled from an empty glob -/
  | never
deriving DecidableEq

/-- Character-class membership: interpret `a-b` as a range, anything else as
a literal member. -/
def clsMatch : List Char → Char → Bool
  | a :: '-' :: b :: rest, d => (a ≤ d && d ≤ b) || clsMatch rest d
  | a :: rest, d => (a = d) || clsMatch rest d
  | [], _ => false

/-- Drop the maximal `/`-free prefix and the `/` after it; `none` when the
string contains no `/`. -/
def dropSeg : Str → Option Str
  | [] => none
  | c :: rest => if c = '/' then some rest else dropSeg rest

/-- Fuelled matcher for a compiled glob against a path string.  Every
recursive call strictly decreases `2 * s.length + ps.length`, so the fuel
supplied by `rxAccept` is never exhausted and the function computes exactly
the regex semantics of the item list:
the globstar item `(?:[^/]*(?:/|$)+)*` either matches nothing, or consumes
one whole segment together with the `/` after it and repeats, or — when the
rest of the input is a single `/`-free run — consumes it all, ending at `$`. -/
def rxStep : Nat → List GlobPart → Str → Bool
  | 0, _, _ => false
  | _ + 1, [], s => s.isEmpty
  | _ + 1, .never :: _, _ => false
  | f + 1, .lit c :: ps, s =>
    match s with
    | [] => false
    | d :: s2 => c = d && rxStep f ps s2
  | f + 1, .anyChar :: ps, s =>
    match s with
    | [] => false
    | _ :: s2 => rxStep f ps s2
  | f + 1, .cls n b :: ps, s =>
    match s with
    | [] => false
    | d :: s2 => (clsMatch b d != n) && rxStep f ps s2
  | f + 1, .wildcard :: ps, s =>
    rxStep f ps s ||
      (match s with
       | [] => false
       | d :: s2 => decide (d ≠ '/') && rxStep f (.wildcard :: ps) s2)
  | f + 1, .sep :: ps, s =>
    match s with
    | [] => false
    | d :: s2 => d = '/' && rxStep f (.sepMaybe :: ps) s2
  | f + 1, .sepMaybe :: ps, s =>
    rxStep f ps s ||
      (match s with
       | [] => false
       | d :: s2 => d = '/' && rxStep f (.sepMaybe :: ps) s2)
  | f + 1, .globstar :: ps, s =>
    rxStep f ps s ||
      (match dropSeg s with
       | some rest => rxStep f (.globstar :: ps) rest
       | none => rxStep f ps [])

/-- Does the compiled glob `ps` match the whole path string `s`?  (The JS
side is `rx.test(p)` on an anchored `^...$` regex.) -/
def rxAccept (ps : List GlobPart) (s : Str) : Bool :=
  rxStep (2 * s.length + ps.length + 1) ps s

/-- Parser state inside one glob segment: top level, after an escape `\`,
inside a `[...]` class (accumulating its body), or after an escape inside a
class. -/
inductive SegMode : Type where
  | top
  | esc
  | cls (neg : Bool) (body : List Char)
  | clsEsc (neg : Bool) (body : List Char)

/-- Compile the characters of one glob segment (no `/` inside) into matcher
items; `none` on a parse failure (dangling `\` or unclosed `[`), in which
case the whole segment is taken literally. -/
def segRun : Str → SegMode → Option (List GlobPart)
  | [], .top => some []
  | [], _ => none
  | c :: rest, .esc => (segRun rest .top).map (GlobPart.lit c :: ·)
  | c :: rest, .clsEsc n b => segRun rest (.cls n (b ++ [c]))
  | c :: rest, .cls n b =>
    if c = ']' then (segRun rest .top).map (GlobPart.cls n b :: ·)
    else if c = '\\' then segRun rest (.clsEsc n b)
    else segRun rest (.cls n (b ++ [c]))
  | c :: rest, .top =>
    if c = '\\' then segRun rest .esc
    else if c = '?' then (segRun rest .top).map (GlobPart.anyChar :: ·)
    else if c = '*' then (segRun rest .top).map (GlobPart.wildcard :: ·)
    else if c = '[' then
      match rest with
      | '!' :: r2 => segRun r2 (.cls true [])
      | '^' :: r2 => segRun r2 (.cls false ['^'])
      | r2 => segRun r2 (.cls false [])
    else (segRun rest .top).map (GlobPart.lit c :: ·)

/-- Compile one segment.  A segment that is exactly `**` becomes the
globstar item (the library's condition: a run of exactly two stars delimited
by separators or the ends of the glob); a malformed segment is taken
literally. -/
def compileSeg (seg : Str) : List GlobPart :=
  if seg = ['*', '*'] then [.globstar]
  else
    match segRun seg .top with
    | some ps => ps
    | none => seg.map .lit

/-- Remove trailing separators from a glob, keeping at least one character
(the library's pre-pass). -/
def stripTrailingSeps (g : Str) : Str :=
  match g.reverse.dropWhile (fun c => c = '/') with
  | [] => g.take 1
  | r => r.reverse

/-- Fuelled segment-by-segment compilation loop.  Each round consumes the
leading segment and the separator run after it, so `g.length + 1` fuel (as
supplied by `globToRegExp`) is never exhausted.  A non-globstar segment is
followed by `sep` when more of the glob remains at the separator position,
and by `sepMaybe` when it is the final segment; a globstar segment absorbs
the separator. -/
def compileLoop : Nat → Str → List GlobPart
  | 0, _ => []
  | f + 1, g =>
    let seg := g.takeWhile (fun c => c ≠ '/')
    let afterSeg := g.dropWhile (fun c => c ≠ '/')
    let rest := afterSeg.dropWhile (fun c => c = '/')
    let gs := seg = ['*', '*']
    let parts := compileSeg seg
    parts ++
      (if gs then [] else if afterSeg.isEmpty then [GlobPart.sepMaybe] else [GlobPart.sep]) ++
      (if rest.isEmpty then [] else compileLoop f rest)

/-- Modelled from the spec: the external `globToRegExp(pat, { extended:
true, globstar: true })` library call (not part of this repository), for the
glob language of §4.1, compiled to the matcher item language above instead
of to a regex object. -/
def globToRegExp (glob : Str) : List GlobPart :=
  if glob.isEmpty then [.never]
  else compileLoop (glob.length + 1) (stripTrailingSeps glob)

/-! ## Rule compilation -/

/-- One compiled rule entry: the negation flag, the compiled matcher, and
the raw rule text. -/
structure CompiledRule : Type where
  neg : Bool
  rx : List GlobPart
  raw : Str
deriving DecidableEq

/-- JS `rule.startsWith("!")`. -/
def ruleNeg : Str → Bool
  | '!' :: _ => true
  | _ => false

/-- JS `pat.endsWith("/")`. -/
def endsWithSlash (s : Str) : Bool :=
  s.getLast? = some '/'

/-- `expandGlobRule` from the source: strip a leading `!`, trim, and expand
a trailing-slash directory rule into four matchers (`**/dir/**`, `dir/**`,
`**/dirNoSlash`, `dirNoSlash`), otherwise compile the pattern directly. -/
def expandGlobRule (rule : Str) : List CompiledRule :=
  let neg := ruleNeg rule
  let rawPat := if neg then rule.tail else rule
  let pat := jsTrim rawPat
  if endsWithSlash pat then
    let dir := pat
    let dirNoSlash := pat.dropLast
    [⟨neg, globToRegExp (['*', '*', '/'] ++ dir ++ ['*', '*']), rule⟩,
     ⟨neg, globToRegExp (dir ++ ['*', '*']), rule⟩,
     ⟨neg, globToRegExp (['*', '*', '/'] ++ dirNoSlash), rule⟩,
     ⟨neg, globToRegExp dirNoSlash, rule⟩]
  else
    [⟨neg, globToRegExp pat, rule⟩]

/-- The pattern text a raw rule line is matched by: the line with a single
leading `!` stripped and surrounding whitespace trimmed. -/
def rulePat (rule : Str) : Str :=
  jsTrim (if ruleNeg rule then rule.tail else rule)

/-- The matcher patterns compiled for a given pattern text alone (no
negation flag, no raw text): one matcher, or four for a directory
shorthand. -/
def expandPat (pat : Str) : List (List GlobPart) :=
  if endsWithSlash pat then
    [globToRegExp (['*', '*', '/'] ++ pat ++ ['*', '*']),
     globToRegExp (pat ++ ['*', '*']),
     globToRegExp (['*', '*', '/'] ++ pat.dropLast),
     globToRegExp pat.dropLast]
  else
    [globToRegExp pat]

/-- The backslash-to-slash normalization at the top of `isIncluded`:
JS `relPath.split("\\").join("/")`. -/
def normSlash (relPath : Str) : Str :=
  jsJoin '/' (splitOnChar '\\' relPath)

/-- `isIncluded` from the source: fold over the compiled rules in order,
defaulting to `true`; each rule whose matcher matches the normalized path
overwrites the verdict with its negation flag. -/
def isIncluded (relPath : Str) (compiledRules : List CompiledRule) : Bool :=
  let p := normSlash relPath
  compiledRules.foldl (fun inc r => if rxAccept r.rx p then r.neg else inc) true

/-- The verdict fold of `isIncluded`, abstracted over the starting verdict. -/
def ruleFold (q : Str) (v : Bool) (rules : List CompiledRule) : Bool :=
  rules.foldl (fun inc r => if rxAccept r.rx q then r.neg else inc) v

/-! ## Rule loading -/

/-- JS `s.startsWith("#")`. -/
def hashStart : Str → Bool
  | '#' :: _ => true
  | _ => false

/-- The per-line filter loop of `loadExcludeRules`: trim each line, drop it
when it is empty or starts with `#`, keep the trimmed text otherwise. -/
def processRuleLines : List Str → List Str
  | [] => []
  | line :: rest =>
    let s := jsTrim line
    if s.isEmpty || hashStart s then processRuleLines rest
    else s :: processRuleLines rest

/-- JS `text.split(/\r?\n/)`. -/
def splitLines : Str → List Str
  | [] => [[]]
  | '\r' :: '\n' :: rest =>
    match splitLines rest with
    | [] => [[]]
    | ls => [] :: ls
  | '\n' :: rest =>
    match splitLines rest with
    | [] => [[]]
    | ls => [] :: ls
  | c :: rest =>
    match splitLines rest with
    | [] => [[c]]
    | l :: ls => (c :: l) :: ls

/-- Kinds of failure `Deno.readTextFileSync` can raise. -/
inductive ReadErr : Type where
  | notFound
  | permissionDenied
  | other
deriving DecidableEq

/-- Outcome of reading a rule file: its text, or an error. -/
inductive ReadOutcome : Type where
  | ok (text : Str)
  | err (e : ReadErr)
deriving DecidableEq

/-- `readLinesIfExists` from the source: split the file into lines, and turn
any read failure — the `catch` is unconditional — into the empty line
list. -/
def readLinesIfExists : ReadOutcome → List Str
  | .ok text => splitLines text
  | .err _ => []

/-- `loadExcludeRules`: global lines first unless disabled, then local
lines, each filtered by `processRuleLines`; the kept rule lines are compiled
in order.  Modelled from the spec for the compile step: the loader of the
current source revision is cut off in the file, so each rule line is
compiled with `expandGlobRule` per §4.1 rather than with the older inline
single-matcher compilation. -/
def loadExcludeRules (noGlobal : Bool) (globalRead localRead : ReadOutcome) :
    List CompiledRule :=
  let globalRules := if noGlobal then [] else processRuleLines (readLinesIfExists globalRead)
  let localRules := processRuleLines (readLinesIfExists localRead)
  (globalRules ++ localRules).flatMap expandGlobRule

/-! ## The tree -/

/-- A tree node: directory name, children as an insertion-ordered map from
name to node (JS `Map`), and the file names pushed so far. -/
inductive Node : Type where
  | mk (nodeName : Str) (children : List (Str × Node)) (files : List Str)

/-- The node's directory name. -/
def Node.nodeName : Node → Str
  | .mk n _ _ => n

/-- The node's child map. -/
def Node.children : Node → List (Str × Node)
  | .mk _ c _ => c

/-- The node's file list. -/
def Node.files : Node → List Str
  | .mk _ _ f => f

/-- `createNode` from the source. -/
def createNode (nodeName : Str) : Node :=
  .mk nodeName [] []

/-- JS `Map.get`: first binding of the key. -/
def getChild : List (Str × Node) → Str → Option Node
  | [], _ => none
  | (k, v) :: rest, d => if k = d then some v else getChild rest d

/-- JS `Map.set`: replace the first binding in place, or append a new
binding at the end. -/
def setChild : List (Str × Node) → Str → Node → List (Str × Node)
  | [], d, c => [(d, c)]
  | (k, v) :: rest, d, c => if k = d then (k, c) :: rest else (k, v) :: setChild rest d c

/-- `insertPath` from the source, with the mutation made explicit: an empty
part list does nothing; a single part is pushed onto `files`; otherwise the
child for the leading directory part is fetched (created if absent) and the
rest of the path is inserted into it, the updated child taking the original
binding's place. -/
def insertPath (root : Node) : List Str → Node
  | [] => root
  | [f] => .mk root.nodeName root.children (root.files ++ [f])
  | d :: b :: rest =>
    let child := (getChild root.children d).getD (createNode d)
    .mk root.nodeName (setChild root.children d (insertPath child (b :: rest))) root.files

/-- Follow a chain of child names from a node. -/
def subnodeAt (n : Node) : List Str → Option Node
  | [] => some n
  | d :: rest =>
    match getChild n.children d with
    | none => none
    | some c => subnodeAt c rest

/-- Does the tree hold file `f` directly under the directory chain `a`? -/
def hasFileAt (t : Node) (a : List Str) (f : Str) : Bool :=
  match subnodeAt t a with
  | none => false
  | some n => f ∈ n.files

/-! ## The filesystem and the walk -/

mutual
/-- One directory entry as reported by `Deno.readDir`: a directory with its
contents, a plain file, or a symlink (neither file nor directory). -/
inductive FSEntry : Type where
  | dir (entryName : Str) (contents : FSList)
  | file (entryName : Str)
  | symlink (entryName : Str)
/-- The entries of one directory, in enumeration order. -/
inductive FSList : Type where
  | nil
  | cons (e : FSEntry) (rest : FSList)
end

/-- The entry's name. -/
def FSEntry.entryName : FSEntry → Str
  | .dir n _ => n
  | .file n => n
  | .symlink n => n

/-- Build an `FSList` from a Lean list (for concrete instances). -/
def fsList : List FSEntry → FSList
  | [] => .nil
  | e :: es => .cons e (fsList es)

/-- `posix.join(relDir, name)` guarded by `relDir ? ... : entry.name` in the
source. -/
def joinRel (relDir : Str) (entryName : Str) : Str :=
  if relDir.isEmpty then entryName else relDir ++ '/' :: entryName

/-- The `walkDir` loop of `buildTree`, with the shared mutable root made an
explicit accumulator: for each entry compute its relative path; skip it
entirely when `isIncluded` rejects it; otherwise recurse into a directory,
insert a file's split path at the root, and ignore a symlink (whether or
not it is excluded, its effect is nothing). -/
def walkDir (rules : List CompiledRule) : FSList → Str → Node → Node
  | .nil, _, root => root
  | .cons (.dir n sub) es, relDir, root =>
    let rel := joinRel relDir n
    walkDir rules es relDir (if !isIncluded rel rules then root else walkDir rules sub rel root)
  | .cons (.file n) es, relDir, root =>
    let rel := joinRel relDir n
    walkDir rules es relDir
      (if !isIncluded rel rules then root else insertPath root (splitOnChar '/' rel))
  | .cons (.symlink _) es, relDir, root => walkDir rules es relDir root

/-- `buildTree` from the source: walk the root directory's entries into an
empty unnamed root node. -/
def buildTree (rules : List CompiledRule) (fs : FSList) : Node :=
  walkDir rules fs [] (createNode [])

/-- The relative paths of the files the walk inserts, in insertion order:
an excluded entry contributes nothing, an included directory contributes its
recursive files, an included file contributes its own path. -/
def includedFiles (rules : List CompiledRule) : FSList → Str → List Str
  | .nil, _ => []
  | .cons (.dir n sub) es, relDir =>
    let rel := joinRel relDir n
    (if !isIncluded rel rules then [] else includedFiles rules sub rel) ++
      includedFiles rules es relDir
  | .cons (.file n) es, relDir =>
    let rel := joinRel relDir n
    (if !isIncluded rel rules then [] else [rel]) ++ includedFiles rules es relDir
  | .cons (.symlink _) es, relDir => includedFiles rules es relDir

/-- The relative paths of all entries the walk enumerates: every entry of a
directory the walk reads is visited; only an included directory's contents
are visited beneath it. -/
def visitedPaths (rules : List CompiledRule) : FSList → Str → List Str
  | .nil, _ => []
  | .cons (.dir n sub) es, relDir =>
    let rel := joinRel relDir n
    rel :: ((if isIncluded rel rules then visitedPaths rules sub rel else []) ++
      visitedPaths rules es relDir)
  | .cons (.file n) es, relDir => joinRel relDir n :: visitedPaths rules es relDir
  | .cons (.symlink n) es, relDir => joinRel relDir n :: visitedPaths rules es relDir

/-- A well-formed entry name: non-empty, no `/`, no `\`. -/
def goodName (n : Str) : Bool :=
  !n.isEmpty && n.all (fun c => !(c = '/') && !(c = '\\'))

/-- Every name in the filesystem is well-formed. -/
def wfFS : FSList → Bool
  | .nil => true
  | .cons (.dir n sub) es => goodName n && wfFS sub && wfFS es
  | .cons e es => goodName e.entryName && wfFS es

/-- Invariant carried along the walk for a non-root relative directory
`relDir`: its path segments are well-formed names, and every non-empty
segment-prefix of it (itself included) passed the inclusion decision. -/
def chainOk (rules : List CompiledRule) (relDir : Str) : Prop :=
  (∀ part ∈ splitOnChar '/' relDir, goodName part = true) ∧
  (∀ q : List Str, q ≠ [] → isStart q (splitOnChar '/' relDir) = true →
    isIncluded (jsJoin '/' q) rules = true)

/-- Is there a directory entry at the (non-empty) chain of names `parts`? -/
def dirExistsAt : FSList → List Str → Bool
  | _, [] => false
  | .nil, _ :: _ => false
  | .cons (.dir n sub) es, d :: rest =>
    (n = d && (rest.isEmpty || dirExistsAt sub rest)) || dirExistsAt es (d :: rest)
  | .cons _ es, d :: rest => dirExistsAt es (d :: rest)

/-! ## String lemmas -/

theorem splitOnChar_ne_nil (sep : Char) (s : Str) : splitOnChar sep s ≠ [] := by
  induction s with
  | nil => simp [splitOnChar]
  | cons c rest ih =>
    cases h : splitOnChar sep rest with
    | nil => exact absurd h ih
    | cons p ps =>
      simp only [splitOnChar, h]
      split <;> simp

theorem splitOnChar_append (sep : Char) (a b : Str) :
    splitOnChar sep (a ++ sep :: b) = splitOnChar sep a ++ splitOnChar sep b := by
  induction a with
  | nil =>
    cases h : splitOnChar sep b with
    | nil => exact absurd h (splitOnChar_ne_nil sep b)
    | cons p ps => simp [splitOnChar, h]
  | cons c a ih =>
    cases h : splitOnChar sep a with
    | nil => exact absurd h (splitOnChar_ne_nil sep a)
    | cons p ps =>
      rw [h] at ih
      have ih2 : splitOnChar sep (a ++ sep :: b) = p :: (ps ++ splitOnChar sep b) := by
        rw [ih]; rfl
      simp only [List.cons_append, splitOnChar, List.append_eq, ih2, h]
      split <;> simp

theorem splitOnChar_eq_self (sep : Char) (a : Str) (h : ∀ c ∈ a, c ≠ sep) :
    splitOnChar sep a = [a] := by
  induction a with
  | nil => simp [splitOnChar]
  | cons c rest ih =>
    have hc : c ≠ sep := h c (by simp)
    have hrest := ih (fun d hd => h d (by simp [hd]))
    simp [splitOnChar, hrest, hc]

theorem jsJoin_splitOnChar (sep : Char) (s : Str) : jsJoin sep (splitOnChar sep s) = s := by
  induction s with
  | nil => simp [splitOnChar, jsJoin]
  | cons c rest ih =>
    cases h : splitOnChar sep rest with
    | nil => exact absurd h (splitOnChar_ne_nil sep rest)
    | cons p ps =>
      rw [h] at ih
      simp only [splitOnChar, h]
      by_cases hc : c = sep
      · subst hc
        simpa [jsJoin] using ih
      · rw [if_neg hc]
        cases ps with
        | nil =>
          simp only [jsJoin] at ih
          simp [jsJoin, ih]
        | cons q qs =>
          simp only [jsJoin] at ih ⊢
          rw [List.cons_append, ih]

/-! ## Prefix (`isStart`) lemmas -/

theorem isStart_nil (a : List Str) : isStart a [] = true → a = [] := by
  cases a <;> simp [isStart]

theorem isStart_length {a b : List Str} (h : isStart a b = true) : a.length ≤ b.length := by
  induction a generalizing b with
  | nil => simp
  | cons x xs ih =>
    cases b with
    | nil => simp [isStart] at h
    | cons y ys =>
      simp only [isStart, Bool.and_eq_true, decide_eq_true_eq] at h
      simpa using ih h.2

theorem isStart_ne_length {a b : List Str} (h : isStart a b = true) (hne : a ≠ b) :
    a.length < b.length := by
  induction a generalizing b with
  | nil =>
    cases b with
    | nil => exact absurd rfl hne
    | cons y ys => simp
  | cons x xs ih =>
    cases b with
    | nil => simp [isStart] at h
    | cons y ys =>
      simp only [isStart, Bool.and_eq_true, decide_eq_true_eq] at h
      obtain ⟨rfl, h2⟩ := h
      have : xs ≠ ys := fun hxy => hne (by rw [hxy])
      simpa using ih h2 this

theorem isStart_trans {a b c : List Str} (h1 : isStart a b = true) (h2 : isStart b c = true) :
    isStart a c = true := by
  induction a generalizing b c with
  | nil => simp [isStart]
  | cons x xs ih =>
    cases b with
    | nil => simp [isStart] at h1
    | cons y ys =>
      cases c with
      | nil => simp [isStart] at h2
      | cons z zs =>
        simp only [isStart, Bool.and_eq_true, decide_eq_true_eq] at h1 h2 ⊢
        exact ⟨h1.1.trans h2.1, ih h1.2 h2.2⟩

theorem isStart_snoc {a S : List Str} {x : Str} (h : isStart a (S ++ [x]) = true) :
    isStart a S = true ∨ a = S ++ [x] := by
  induction a generalizing S with
  | nil => simp [isStart]
  | cons y ys ih =>
    cases S with
    | nil =>
      simp only [List.nil_append] at h
      cases ys with
      | nil =>
        simp only [isStart, Bool.and_eq_true, decide_eq_true_eq] at h
        exact Or.inr (by simp [h.1])
      | cons z zs => simp [isStart] at h
    | cons w S2 =>
      simp only [List.cons_append, isStart, Bool.and_eq_true, decide_eq_true_eq] at h ⊢
      obtain ⟨rfl, h2⟩ := h
      rcases ih h2 with h3 | h3
      · exact Or.inl ⟨rfl, h3⟩
      · exact Or.inr (by simp [h3])

theorem isStart_dropLast_self (b : List Str) : isStart b.dropLast b = true := by
  induction b with
  | nil => simp [isStart]
  | cons x xs ih =>
    cases xs with
    | nil => simp [isStart]
    | cons y ys => simpa [isStart] using ih

theorem isStart_refl (a : List Str) : isStart a a = true := by
  induction a with
  | nil => simp [isStart]
  | cons x xs ih => simp [isStart, ih]

theorem isStart_append (a b : List Str) : isStart a (a ++ b) = true := by
  induction a with
  | nil => simp [isStart]
  | cons x xs ih => simp [isStart, ih]

/-! ## Verdict-fold lemmas -/

theorem isIncluded_eq_ruleFold (p : Str) (rules : List CompiledRule) :
    isIncluded p rules = ruleFold (normSlash p) true rules := rfl

theorem ruleFold_append (q : Str) (v : Bool) (A B : List CompiledRule) :
    ruleFold q v (A ++ B) = ruleFold q (ruleFold q v A) B := by
  simp [ruleFold, List.foldl_append]

theorem ruleFold_nomatch (q : Str) (v : Bool) (B : List CompiledRule)
    (h : ∀ r ∈ B, rxAccept r.rx q = false) : ruleFold q v B = v := by
  induction B generalizing v with
  | nil => rfl
  | cons r B ih =>
    have hr : rxAccept r.rx q = false := h r (by simp)
    simp only [ruleFold, List.foldl_cons, hr, if_false]
    exact ih v (fun r2 h2 => h r2 (by simp [h2]))

theorem ruleFold_block (q : Str) (v : Bool) (B : List CompiledRule) (n : Bool)
    (h : ∀ r ∈ B, r.neg = n) :
    ruleFold q v B = if B.any (fun r => rxAccept r.rx q) then n else v := by
  induction B generalizing v with
  | nil => rfl
  | cons r B ih =>
    have hr : r.neg = n := h r (by simp)
    have ih2 := ih (if rxAccept r.rx q then r.neg else v) (fun r2 h2 => h r2 (by simp [h2]))
    simp only [ruleFold, List.foldl_cons] at ih2 ⊢
    rw [ih2, List.any_cons]
    by_cases hm : rxAccept r.rx q
    · simp [hm, hr]
    · simp [hm]

theorem expandGlobRule_neg_raw (rule : Str) :
    ∀ cr ∈ expandGlobRule rule, cr.neg = ruleNeg rule ∧ cr.raw = rule := by
  intro cr hcr
  simp only [expandGlobRule] at hcr
  split at hcr <;> split at hcr <;>
    simp only [List.mem_cons, List.not_mem_nil, or_false] at hcr
  all_goals rcases hcr with rfl | rfl | rfl | rfl <;> exact ⟨rfl, rfl⟩

/-! ## Claims about the rule engine -/

/-- C2: a rule whose pattern ends with a path separator is expanded into
exactly four matchers, all carrying the rule's negation flag, and the
directory-shorthand rule `build/` matches each of `build`, `build/out.txt`,
`a/build` and `a/build/out.txt`. -/
theorem dir_shorthand_four_matchers (rule : Str)
    (h : endsWithSlash (rulePat rule) = true) :
    ((expandGlobRule rule).length = 4 ∧
      ∀ cr ∈ expandGlobRule rule, cr.neg = ruleNeg rule) ∧
    (((expandGlobRule "build/".toList).any fun cr => rxAccept cr.rx "build".toList) = true ∧
      ((expandGlobRule "build/".toList).any fun cr => rxAccept cr.rx "build/out.txt".toList) = true ∧
      ((expandGlobRule "build/".toList).any fun cr => rxAccept cr.rx "a/build".toList) = true ∧
      ((expandGlobRule "build/".toList).any fun cr => rxAccept cr.rx "a/build/out.txt".toList) = true) := by
  refine ⟨⟨?_, fun cr hcr => (expandGlobRule_neg_raw rule cr hcr).1⟩,
    by decide, by decide, by decide, by decide⟩
  have h2 : endsWithSlash (jsTrim (if ruleNeg rule then rule.tail else rule)) = true := h
  simp [expandGlobRule, h2]

/-- Witness for C2 at the concrete rule `build/`. -/
theorem dir_shorthand_four_matchers_w :
    endsWithSlash (rulePat "build/".toList) = true ∧
    (((expandGlobRule "build/".toList).length = 4 ∧
      ∀ cr ∈ expandGlobRule "build/".toList, cr.neg = ruleNeg "build/".toList) ∧
    (((expandGlobRule "build/".toList).any fun cr => rxAccept cr.rx "build".toList) = true ∧
      ((expandGlobRule "build/".toList).any fun cr => rxAccept cr.rx "build/out.txt".toList) = true ∧
      ((expandGlobRule "build/".toList).any fun cr => rxAccept cr.rx "a/build".toList) = true ∧
      ((expandGlobRule "build/".toList).any fun cr => rxAccept cr.rx "a/build/out.txt".toList) = true)) :=
  ⟨by decide, dir_shorthand_four_matchers "build/".toList (by decide)⟩

/-- C3: the verdict of `isIncluded` over a rule set (each raw line compiled
by `expandGlobRule`) equals the negation flag of the last rule any of whose
matchers matches the normalized path, and `true` when no rule matches. -/
theorem verdict_is_last_matching_rule (p : Str) (lines : List Str) :
    isIncluded p (lines.flatMap expandGlobRule) =
      ((lines.reverse.find? fun l =>
          (expandGlobRule l).any fun cr => rxAccept cr.rx (normSlash p)).map ruleNeg).getD true := by
  induction lines using List.reverseRecOn with
  | nil => simp [isIncluded, ruleFold]
  | append_singleton ls l ih =>
    have hsing : [l].flatMap expandGlobRule = expandGlobRule l := by simp
    rw [List.flatMap_append, isIncluded_eq_ruleFold, ruleFold_append,
      ← isIncluded_eq_ruleFold, hsing,
      ruleFold_block _ _ _ (ruleNeg l) (fun cr hcr => (expandGlobRule_neg_raw l cr hcr).1)]
    have hrev : (ls ++ [l]).reverse = l :: ls.reverse := by simp
    rw [hrev]
    by_cases hm : ((expandGlobRule l).any fun cr => rxAccept cr.rx (normSlash p)) = true
    · simp [hm]
    · simp [hm, ih]

/-- C4: when no matcher of any rule matches the normalized path, the
verdict defaults to include. -/
theorem no_match_default_include (p : Str) (R : List CompiledRule)
    (h : ∀ r ∈ R, rxAccept r.rx (normSlash p) = false) :
    isIncluded p R = true := by
  rw [isIncluded_eq_ruleFold]
  exact ruleFold_nomatch _ _ _ h

/-- Witness for C4: the rule `*.log` does not match `notes.txt`. -/
theorem no_match_default_include_w :
    (∀ r ∈ expandGlobRule "*.log".toList,
      rxAccept r.rx (normSlash "notes.txt".toList) = false) ∧
    isIncluded "notes.txt".toList (expandGlobRule "*.log".toList) = true :=
  ⟨by decide, no_match_default_include "notes.txt".toList (expandGlobRule "*.log".toList) (by decide)⟩

/-- C5: appending a rule none of whose matchers matches the path leaves the
path's verdict unchanged. -/
theorem append_nonmatching_preserves (R : List CompiledRule) (p : Str) (rule : Str)
    (h : ∀ cr ∈ expandGlobRule rule, rxAccept cr.rx (normSlash p) = false) :
    isIncluded p (R ++ expandGlobRule rule) = isIncluded p R := by
  rw [isIncluded_eq_ruleFold, ruleFold_append, ruleFold_nomatch _ _ _ h,
    ← isIncluded_eq_ruleFold]

/-- Witness for C5: appending `!important.log` does not change the verdict
of `notes.txt` under `*.log`. -/
theorem append_nonmatching_preserves_w :
    (∀ cr ∈ expandGlobRule "!important.log".toList,
      rxAccept cr.rx (normSlash "notes.txt".toList) = false) ∧
    isIncluded "notes.txt".toList
        (expandGlobRule "*.log".toList ++ expandGlobRule "!important.log".toList) =
      isIncluded "notes.txt".toList (expandGlobRule "*.log".toList) :=
  ⟨by decide,
    append_nonmatching_preserves (expandGlobRule "*.log".toList) "notes.txt".toList
      "!important.log".toList (by decide)⟩

/-- C7: a line that is blank after trimming, or whose first non-blank
character is `#`, never becomes a rule, and therefore never affects any
inclusion decision, whatever the compiler applied to the kept lines. -/
theorem comment_blank_line_inert (pre post : List Str) (l : Str)
    (h : jsTrim l = [] ∨ hashStart (jsTrim l) = true) :
    processRuleLines (pre ++ l :: post) = processRuleLines (pre ++ post) ∧
    ∀ (compile : Str → List CompiledRule) (p : Str),
      isIncluded p ((processRuleLines (pre ++ l :: post)).flatMap compile) =
        isIncluded p ((processRuleLines (pre ++ post)).flatMap compile) := by
  have key : processRuleLines (pre ++ l :: post) = processRuleLines (pre ++ post) := by
    induction pre with
    | nil =>
      rcases h with h | h
      · simp [processRuleLines, h]
      · simp [processRuleLines, h]
    | cons x pre ih =>
      simp only [List.cons_append, processRuleLines, List.append_eq, ih]
  exact ⟨key, fun compile p => by rw [key]⟩

/-- Witness for C7 at the comment line `# note`. -/
theorem comment_blank_line_inert_w :
    (jsTrim "# note".toList = [] ∨ hashStart (jsTrim "# note".toList) = true) ∧
    (processRuleLines (["*.log".toList] ++ "# note".toList :: ["!important.log".toList]) =
        processRuleLines (["*.log".toList] ++ ["!important.log".toList]) ∧
      ∀ (compile : Str → List CompiledRule) (p : Str),
        isIncluded p ((processRuleLines
            (["*.log".toList] ++ "# note".toList :: ["!important.log".toList])).flatMap compile) =
          isIncluded p ((processRuleLines
            (["*.log".toList] ++ ["!important.log".toList])).flatMap compile)) :=
  ⟨Or.inr (by decide),
    comment_blank_line_inert ["*.log".toList] ["!important.log".toList] "# note".toList
      (Or.inr (by decide))⟩

/-- C8: compilation determines the negation flag by a single leading `!`
and matches on the remaining text trimmed: `expandGlobRule` factors through
`ruleNeg` and `rulePat`, and every produced matcher carries that flag and
the raw text. -/
theorem strip_bang_then_trim (rule : Str) :
    expandGlobRule rule =
      (expandPat (rulePat rule)).map (fun m => ⟨ruleNeg rule, m, rule⟩) ∧
    ∀ cr ∈ expandGlobRule rule, cr.neg = ruleNeg rule ∧ cr.raw = rule := by
  refine ⟨?_, expandGlobRule_neg_raw rule⟩
  simp only [expandGlobRule, expandPat, rulePat]
  by_cases hs : endsWithSlash (jsTrim (if ruleNeg rule then rule.tail else rule)) = true <;>
    simp [hs]

/-- Witness for C8 at the concrete rule `!build/`. -/
theorem strip_bang_then_trim_w :
    expandGlobRule "!build/".toList =
      (expandPat (rulePat "!build/".toList)).map
        (fun m => ⟨ruleNeg "!build/".toList, m, "!build/".toList⟩) ∧
    ∀ cr ∈ expandGlobRule "!build/".toList,
      cr.neg = ruleNeg "!build/".toList ∧ cr.raw = "!build/".toList :=
  strip_bang_then_trim "!build/".toList

/-- C9 counterexample: a permission failure while reading a rule file is
silently turned into the empty rule source, indistinguishable from the
missing-file case, so the missing-file case is not the only silently
swallowed read error. -/
theorem read_error_swallowed_cx :
    readLinesIfExists (.err .permissionDenied) = [] ∧
    readLinesIfExists (.err .permissionDenied) = readLinesIfExists (.err .notFound) :=
  ⟨rfl, rfl⟩

/-- C9 amended: a missing rule file yields an empty rule source, and so
does every other rule-file read error — the `catch` is unconditional. -/
theorem read_error_all_swallowed :
    readLinesIfExists (.err .notFound) = [] ∧
    ∀ e : ReadErr, readLinesIfExists (.err e) = [] :=
  ⟨rfl, fun _ => rfl⟩

/-! ## Tree lemmas -/

@[simp] theorem nodeName_mk (nm : Str) (cs : List (Str × Node)) (fl : List Str) :
    (Node.mk nm cs fl).nodeName = nm := rfl

@[simp] theorem children_mk (nm : Str) (cs : List (Str × Node)) (fl : List Str) :
    (Node.mk nm cs fl).children = cs := rfl

@[simp] theorem files_mk (nm : Str) (cs : List (Str × Node)) (fl : List Str) :
    (Node.mk nm cs fl).files = fl := rfl

theorem getChild_setChild_same (cs : List (Str × Node)) (d : Str) (v : Node) :
    getChild (setChild cs d v) d = some v := by
  induction cs with
  | nil => simp [setChild, getChild]
  | cons kv rest ih =>
    obtain ⟨k, w⟩ := kv
    by_cases hk : k = d
    · simp [setChild, getChild, hk]
    · simp [setChild, getChild, hk, ih]

theorem getChild_setChild_ne (cs : List (Str × Node)) (d k : Str) (v : Node) (hk : k ≠ d) :
    getChild (setChild cs d v) k = getChild cs k := by
  induction cs with
  | nil =>
    simp only [setChild, getChild]
    rw [if_neg (fun h => hk h.symm)]
  | cons kv rest ih =>
    obtain ⟨k2, w⟩ := kv
    by_cases h2 : k2 = d
    · subst h2
      simp only [setChild, if_pos rfl, getChild]
      rw [if_neg (fun h => hk h.symm), if_neg (fun h => hk h.symm)]
    · simp only [setChild, if_neg h2, getChild]
      by_cases h3 : k2 = k
      · simp [h3]
      · simp [h3, ih]

theorem subnodeAt_createNode (nm : Str) (a : List Str) (h : a ≠ []) :
    subnodeAt (createNode nm) a = none := by
  cases a with
  | nil => exact absurd rfl h
  | cons x a2 => simp [createNode, subnodeAt, Node.children, getChild]

theorem subnodeAt_insertPath_off (parts : List Str) :
    ∀ (root : Node) (a : List Str), isStart a parts.dropLast = false →
      subnodeAt (insertPath root parts) a = subnodeAt root a := by
  induction parts with
  | nil => intro root a _; rfl
  | cons d tl ih =>
    cases tl with
    | nil =>
      intro root a h
      obtain ⟨nm, cs, fl⟩ := root
      cases a with
      | nil => simp [isStart] at h
      | cons x a2 => rfl
    | cons b rest =>
      intro root a h
      obtain ⟨nm, cs, fl⟩ := root
      cases a with
      | nil => simp [isStart] at h
      | cons x a2 =>
        by_cases hx : x = d
        · subst hx
          have h2 : isStart a2 (b :: rest).dropLast = false := by
            simpa [List.dropLast, isStart] using h
          have ha2 : a2 ≠ [] := by
            intro hnil
            rw [hnil] at h2
            simp [isStart] at h2
          simp only [insertPath, subnodeAt, children_mk, getChild_setChild_same]
          rw [ih _ _ h2]
          cases hc : getChild cs x with
          | some c => simp [hc]
          | none => simp [hc, subnodeAt_createNode _ _ ha2]
        · simp only [insertPath, subnodeAt, children_mk]
          rw [getChild_setChild_ne _ _ _ _ hx]

theorem insertPath_preserves (parts : List Str) :
    ∀ (root : Node) (a : List Str) (n : Node), subnodeAt root a = some n →
      ∃ m : Node, subnodeAt (insertPath root parts) a = some m ∧
        (∀ f ∈ n.files, f ∈ m.files) ∧
        ∀ k : Str, (getChild n.children k).isSome = true →
          (getChild m.children k).isSome = true := by
  induction parts with
  | nil => intro root a n h; exact ⟨n, h, fun f hf => hf, fun k hk => hk⟩
  | cons d tl ih =>
    cases tl with
    | nil =>
      intro root a n h
      obtain ⟨nm, cs, fl⟩ := root
      cases a with
      | nil =>
        rw [show subnodeAt (Node.mk nm cs fl) [] = some (Node.mk nm cs fl) from rfl,
          Option.some_inj] at h
        subst h
        exact ⟨Node.mk nm cs (fl ++ [d]), rfl,
          fun f hf => by simp only [files_mk] at hf; simp [hf], fun k hk => hk⟩
      | cons x a2 => exact ⟨n, h, fun f hf => hf, fun k hk => hk⟩
    | cons b rest =>
      intro root a n h
      obtain ⟨nm, cs, fl⟩ := root
      cases a with
      | nil =>
        rw [show subnodeAt (Node.mk nm cs fl) [] = some (Node.mk nm cs fl) from rfl,
          Option.some_inj] at h
        subst h
        refine ⟨insertPath (Node.mk nm cs fl) (d :: b :: rest), rfl, ?_, ?_⟩
        · intro f hf
          simpa [insertPath] using hf
        · intro k hk
          by_cases hkd : k = d
          · subst hkd
            simp [insertPath, getChild_setChild_same]
          · simp only [insertPath, children_mk] at hk ⊢
            rwa [getChild_setChild_ne _ _ _ _ hkd]
      | cons x a2 =>
        have h2 : (match getChild cs x with
            | none => none
            | some c => subnodeAt c a2) = some n := h
        cases hc : getChild cs x with
        | none => rw [hc] at h2; exact absurd h2 (by simp)
        | some c =>
          rw [hc] at h2
          by_cases hx : x = d
          · subst hx
            obtain ⟨m, hm, hmf, hmc⟩ := ih c a2 n h2
            refine ⟨m, ?_, hmf, hmc⟩
            show (match getChild (setChild cs x
                (insertPath ((getChild cs x).getD (createNode x)) (b :: rest))) x with
              | none => none
              | some c2 => subnodeAt c2 a2) = some m
            rw [getChild_setChild_same]
            simpa [hc] using hm
          · refine ⟨n, ?_, fun f hf => hf, fun k hk => hk⟩
            show (match getChild (setChild cs d
                (insertPath ((getChild cs d).getD (createNode d)) (b :: rest))) x with
              | none => none
              | some c2 => subnodeAt c2 a2) = some n
            rw [getChild_setChild_ne _ _ _ _ hx, hc]
            exact h2

theorem subnodeAt_insertPath_origin (parts : List Str) :
    ∀ (root : Node) (a : List Str),
      (subnodeAt (insertPath root parts) a).isSome = true →
      (subnodeAt root a).isSome = true ∨ isStart a parts.dropLast = true := by
  induction parts with
  | nil => intro root a h; exact Or.inl h
  | cons d tl ih =>
    cases tl with
    | nil =>
      intro root a h
      obtain ⟨nm, cs, fl⟩ := root
      cases a with
      | nil => exact Or.inl (by simp [subnodeAt])
      | cons x a2 => exact Or.inl h
    | cons b rest =>
      intro root a h
      obtain ⟨nm, cs, fl⟩ := root
      cases a with
      | nil => exact Or.inl (by simp [subnodeAt])
      | cons x a2 =>
        by_cases hx : x = d
        · subst hx
          have h2 : (match getChild (setChild cs x
                (insertPath ((getChild cs x).getD (createNode x)) (b :: rest))) x with
              | none => none
              | some c2 => subnodeAt c2 a2).isSome = true := h
          rw [getChild_setChild_same] at h2
          rcases ih _ a2 h2 with h3 | h3
          · cases hc : getChild cs x with
            | some c =>
              rw [hc] at h3
              simp only [Option.getD_some] at h3
              refine Or.inl ?_
              show (match getChild cs x with
                | none => none
                | some c2 => subnodeAt c2 a2).isSome = true
              rw [hc]
              exact h3
            | none =>
              rw [hc] at h3
              simp only [Option.getD_none] at h3
              cases a2 with
              | nil => exact Or.inr (by simp [isStart, List.dropLast])
              | cons y a3 =>
                rw [subnodeAt_createNode _ _ (by simp)] at h3
                simp at h3
          · exact Or.inr (by simpa [isStart, List.dropLast] using h3)
        · have h2 : (match getChild (setChild cs d
                (insertPath ((getChild cs d).getD (createNode d)) (b :: rest))) x with
              | none => none
              | some c2 => subnodeAt c2 a2).isSome = true := h
          rw [getChild_setChild_ne _ _ _ _ hx] at h2
          exact Or.inl h2

/-! ## Walk lemmas -/

theorem subnodeAt_walkDir_origin (rules : List CompiledRule) (fsl : FSList) (relDir : Str)
    (root : Node) :
    ∀ a : List Str, (subnodeAt (walkDir rules fsl relDir root) a).isSome = true →
      (subnodeAt root a).isSome = true ∨
        ∃ r ∈ includedFiles rules fsl relDir, isStart a (splitOnChar '/' r).dropLast = true := by
  induction fsl, relDir, root using walkDir.induct rules with
  | case1 relDir root => intro a h; exact Or.inl h
  | case2 n sub es relDir root rel ihsub ihes =>
    intro a h
    simp only [walkDir] at h
    simp only [includedFiles]
    rcases ihes a h with h2 | ⟨r, hr, hra⟩
    · by_cases hinc : isIncluded (joinRel relDir n) rules = true
      · rw [if_neg (by simp [hinc])] at h2
        rcases ihsub a h2 with h3 | ⟨r, hr, hra⟩
        · exact Or.inl h3
        · refine Or.inr ⟨r, ?_, hra⟩
          rw [if_neg (by simp [hinc])]
          exact List.mem_append_left _ hr
      · rw [if_pos (by simpa using hinc)] at h2
        exact Or.inl h2
    · refine Or.inr ⟨r, ?_, hra⟩
      exact List.mem_append_right _ hr
  | case3 n es relDir root rel ihes =>
    intro a h
    simp only [walkDir] at h
    simp only [includedFiles]
    rcases ihes a h with h2 | ⟨r, hr, hra⟩
    · by_cases hinc : isIncluded (joinRel relDir n) rules = true
      · rw [if_neg (by simp [hinc])] at h2
        rcases subnodeAt_insertPath_origin _ root a h2 with h3 | h3
        · exact Or.inl h3
        · refine Or.inr ⟨joinRel relDir n, ?_, h3⟩
          rw [if_neg (by simp [hinc])]
          exact List.mem_append_left _ (by simp)
      · rw [if_pos (by simpa using hinc)] at h2
        exact Or.inl h2
    · refine Or.inr ⟨r, ?_, hra⟩
      exact List.mem_append_right _ hr
  | case4 n es relDir root ihes =>
    intro a h
    simp only [walkDir] at h
    simp only [includedFiles]
    rcases ihes a h with h2 | ⟨r, hr, hra⟩
    · exact Or.inl h2
    · exact Or.inr ⟨r, hr, hra⟩

theorem includedFiles_sub_visited (rules : List CompiledRule) (fsl : FSList) (relDir : Str) :
    ∀ r ∈ includedFiles rules fsl relDir, r ∈ visitedPaths rules fsl relDir := by
  induction fsl, relDir using includedFiles.induct rules with
  | case1 relDir => intro r hr; exact absurd hr (by simp [includedFiles])
  | case2 n sub es relDir rel ihsub ihes =>
    intro r hr
    simp only [includedFiles] at hr
    simp only [visitedPaths]
    rcases List.mem_append.mp hr with h | h
    · by_cases hinc : isIncluded (joinRel relDir n) rules = true
      · rw [if_neg (by simp [hinc])] at h
        exact List.mem_cons_of_mem _ (List.mem_append_left _ (by rw [if_pos hinc]; exact ihsub r h))
      · rw [if_pos (by simpa using hinc)] at h
        exact absurd h (by simp)
    · exact List.mem_cons_of_mem _ (List.mem_append_right _ (ihes r h))
  | case3 n es relDir ihes =>
    intro r hr
    simp only [includedFiles] at hr
    simp only [visitedPaths]
    rcases List.mem_append.mp hr with h | h
    · by_cases hinc : isIncluded (joinRel relDir n) rules = true
      · rw [if_neg (by simp [hinc])] at h
        rw [List.mem_singleton] at h
        subst h
        exact List.mem_cons_self _ _
      · rw [if_pos (by simpa using hinc)] at h
        exact absurd h (by simp)
    · exact List.mem_cons_of_mem _ (ihes r h)
  | case4 n es relDir ihes =>
    intro r hr
    simp only [includedFiles] at hr
    simp only [visitedPaths]
    exact List.mem_cons_of_mem _ (ihes r hr)

/-! ## The ancestor-inclusion invariant of the walk -/

theorem goodName_no_slash {n : Str} (h : goodName n = true) : ∀ c ∈ n, c ≠ '/' := by
  simp only [goodName, Bool.and_eq_true, List.all_eq_true] at h
  intro c hc
  have h2 := h.2 c hc
  simp only [Bool.and_eq_true, Bool.not_eq_true', decide_eq_false_iff_not] at h2
  exact h2.1

theorem goodName_ne_nil {n : Str} (h : goodName n = true) : n ≠ [] := by
  simp only [goodName, Bool.and_eq_true] at h
  simpa [List.isEmpty_iff] using h.1

theorem isStart_singleton {q : List Str} {x : Str} (hne : q ≠ [])
    (h : isStart q [x] = true) : q = [x] := by
  cases q with
  | nil => exact absurd rfl hne
  | cons y ys =>
    cases ys with
    | nil => simp only [isStart, Bool.and_eq_true, decide_eq_true_eq] at h; simp [h.1]
    | cons z zs => simp [isStart] at h

theorem chainOk_joinRel (rules : List CompiledRule) (relDir n : Str)
    (hn : goodName n = true) (hinv : relDir = [] ∨ chainOk rules relDir) :
    (∀ part ∈ splitOnChar '/' (joinRel relDir n), goodName part = true) ∧
    (∀ q : List Str, q ≠ [] → isStart q (splitOnChar '/' (joinRel relDir n)) = true →
      q ≠ splitOnChar '/' (joinRel relDir n) → isIncluded (jsJoin '/' q) rules = true) ∧
    (isIncluded (joinRel relDir n) rules = true → chainOk rules (joinRel relDir n)) := by
  have hsplitn : splitOnChar '/' n = [n] := splitOnChar_eq_self _ _ (goodName_no_slash hn)
  rcases hinv with rfl | hch
  · have hrel : joinRel [] n = n := by simp [joinRel]
    rw [hrel, hsplitn]
    refine ⟨by simpa using hn, ?_, ?_⟩
    · intro q hq h1 h2
      exact absurd (isStart_singleton hq h1) h2
    · intro hinc
      rw [chainOk, hsplitn]
      refine ⟨by simpa using hn, ?_⟩
      intro q hq h1
      rw [isStart_singleton hq h1]
      exact hinc
  · by_cases hrd : relDir = []
    · subst hrd
      have : goodName [] = true := hch.1 [] (by simp [splitOnChar])
      simp [goodName] at this
    · have hie : relDir.isEmpty = false := by simpa [List.isEmpty_iff] using hrd
      have hrel : joinRel relDir n = relDir ++ '/' :: n := by simp [joinRel, hie]
      have hsplit : splitOnChar '/' (joinRel relDir n) = splitOnChar '/' relDir ++ [n] := by
        rw [hrel, splitOnChar_append, hsplitn]
      rw [hsplit]
      have hparts : ∀ part ∈ splitOnChar '/' relDir ++ [n], goodName part = true := by
        intro part hp
        rcases List.mem_append.mp hp with hp | hp
        · exact hch.1 part hp
        · rw [List.mem_singleton] at hp
          subst hp
          exact hn
      refine ⟨hparts, ?_, ?_⟩
      · intro q hq h1 h2
        rcases isStart_snoc h1 with h3 | h3
        · exact hch.2 q hq h3
        · exact absurd h3 h2
      · intro hinc
        rw [chainOk, hsplit]
        refine ⟨hparts, ?_⟩
        intro q hq h1
        rcases isStart_snoc h1 with h3 | h3
        · exact hch.2 q hq h3
        · rw [h3, ← hsplit, jsJoin_splitOnChar]
          exact hinc

theorem visitedPaths_chain (rules : List CompiledRule) (fsl : FSList) (relDir : Str) :
    wfFS fsl = true → (relDir = [] ∨ chainOk rules relDir) →
    ∀ v ∈ visitedPaths rules fsl relDir,
      (∀ part ∈ splitOnChar '/' v, goodName part = true) ∧
      (∀ q : List Str, q ≠ [] → isStart q (splitOnChar '/' v) = true →
        q ≠ splitOnChar '/' v → isIncluded (jsJoin '/' q) rules = true) := by
  induction fsl, relDir using visitedPaths.induct rules with
  | case1 relDir => intro _ _ v hv; exact absurd hv (by simp [visitedPaths])
  | case2 n sub es relDir rel ihsub ihes =>
    intro hwf hinv v hv
    obtain ⟨⟨hn, hwsub⟩, hwes⟩ :
        (goodName n = true ∧ wfFS sub = true) ∧ wfFS es = true := by
      simpa [wfFS, Bool.and_eq_true] using hwf
    have hjr := chainOk_joinRel rules relDir n hn hinv
    simp only [visitedPaths] at hv
    rcases List.mem_cons.mp hv with rfl | hv2
    · exact ⟨hjr.1, hjr.2.1⟩
    rcases List.mem_append.mp hv2 with h | h
    · by_cases hinc : isIncluded (joinRel relDir n) rules = true
      · rw [if_pos hinc] at h
        exact ihsub hwsub (Or.inr (hjr.2.2 hinc)) v h
      · rw [if_neg hinc] at h
        exact absurd h (by simp)
    · exact ihes hwes hinv v h
  | case3 n es relDir ihes =>
    intro hwf hinv v hv
    obtain ⟨hn, hwes⟩ : goodName n = true ∧ wfFS es = true := by
      simpa [wfFS, FSEntry.entryName, Bool.and_eq_true] using hwf
    have hjr := chainOk_joinRel rules relDir n hn hinv
    simp only [visitedPaths] at hv
    rcases List.mem_cons.mp hv with rfl | hv2
    · exact ⟨hjr.1, hjr.2.1⟩
    · exact ihes hwes hinv v hv2
  | case4 n es relDir ihes =>
    intro hwf hinv v hv
    obtain ⟨hn, hwes⟩ : goodName n = true ∧ wfFS es = true := by
      simpa [wfFS, FSEntry.entryName, Bool.and_eq_true] using hwf
    have hjr := chainOk_joinRel rules relDir n hn hinv
    simp only [visitedPaths] at hv
    rcases List.mem_cons.mp hv with rfl | hv2
    · exact ⟨hjr.1, hjr.2.1⟩
    · exact ihes hwes hinv v hv2

/-! ## Claims about the walk and the tree -/

/-- C1: once the inclusion engine excludes a directory entry, the walk
enumerates nothing strictly beneath it (every visited path at or below the
directory's chain is the directory itself), and no strict descendant of the
chain appears in the final tree, neither as a node nor as a file — whatever
later rules (including re-including negations) the rule set contains. -/
theorem excluded_dir_pruned (rules : List CompiledRule) (fs : FSList) (dparts : List Str)
    (hwf : wfFS fs = true) (hne : dparts ≠ [])
    (_hdir : dirExistsAt fs dparts = true)
    (hex : isIncluded (jsJoin '/' dparts) rules = false) :
    (∀ v ∈ visitedPaths rules fs [],
      isStart dparts (splitOnChar '/' v) = true → splitOnChar '/' v = dparts) ∧
    (∀ a : List Str, isStart dparts a = true → a ≠ dparts →
      subnodeAt (buildTree rules fs) a = none) ∧
    (∀ (a : List Str) (f : Str), isStart dparts (a ++ [f]) = true → a ++ [f] ≠ dparts →
      hasFileAt (buildTree rules fs) a f = false) := by
  have chain := visitedPaths_chain rules fs [] hwf (Or.inl rfl)
  have keyVisited : ∀ v ∈ visitedPaths rules fs [],
      isStart dparts (splitOnChar '/' v) = true → splitOnChar '/' v = dparts := by
    intro v hv h1
    by_contra h2
    have h3 := (chain v hv).2 dparts hne h1 (fun he => h2 he.symm)
    rw [hex] at h3
    exact Bool.false_ne_true h3
  have keyNode : ∀ a : List Str, isStart dparts a = true →
      subnodeAt (buildTree rules fs) a = none := by
    intro a ha
    cases hsn : subnodeAt (buildTree rules fs) a with
    | none => rfl
    | some nd =>
      exfalso
      have hsome : (subnodeAt (walkDir rules fs [] (createNode [])) a).isSome = true := by
        rw [show walkDir rules fs [] (createNode []) = buildTree rules fs from rfl, hsn]
        rfl
      rcases subnodeAt_walkDir_origin rules fs [] (createNode []) a hsome with h | ⟨r, hr, hra⟩
      · have hanil : a ≠ [] := fun h0 => hne (isStart_nil _ (h0 ▸ ha))
        rw [subnodeAt_createNode _ _ hanil] at h
        simp at h
      · have hvr : r ∈ visitedPaths rules fs [] := includedFiles_sub_visited rules fs [] r hr
        have hsr : isStart dparts (splitOnChar '/' r) = true :=
          isStart_trans (isStart_trans ha hra) (isStart_dropLast_self _)
        have hlen : dparts.length < (splitOnChar '/' r).length := by
          have l1 : dparts.length ≤ a.length := isStart_length ha
          have l2 : a.length ≤ (splitOnChar '/' r).dropLast.length := isStart_length hra
          have l3 : (splitOnChar '/' r).dropLast.length = (splitOnChar '/' r).length - 1 := by
            simp [List.length_dropLast]
          have l4 : (splitOnChar '/' r).length ≠ 0 := by
            simpa [List.length_eq_zero] using splitOnChar_ne_nil '/' r
          omega
        have := keyVisited r hvr hsr
        rw [this] at hlen
        omega
  refine ⟨keyVisited, fun a ha _ => keyNode a ha, ?_⟩
  intro a f hsf _hnef
  have ha : isStart dparts a = true := by
    rcases isStart_snoc hsf with h | h
    · exact h
    · exact absurd h.symm (by simpa using _hnef)
  rw [hasFileAt, keyNode a ha]

/-- Witness for C1: the spec's own scenario — rules `build/` then
`!build/keep.txt` over a tree holding `build/keep.txt`; the negation would
re-include the file in isolation, yet nothing beneath `build` is visited or
materialized. -/
theorem excluded_dir_pruned_w :
    (wfFS (fsList [FSEntry.dir "build".toList (fsList [FSEntry.file "keep.txt".toList])]) = true ∧
      (["build".toList] : List Str) ≠ [] ∧
      dirExistsAt (fsList [FSEntry.dir "build".toList (fsList [FSEntry.file "keep.txt".toList])])
        ["build".toList] = true ∧
      isIncluded (jsJoin '/' ["build".toList])
        (expandGlobRule "build/".toList ++ expandGlobRule "!build/keep.txt".toList) = false ∧
      isIncluded "build/keep.txt".toList
        (expandGlobRule "build/".toList ++ expandGlobRule "!build/keep.txt".toList) = true) ∧
    ((∀ v ∈ visitedPaths (expandGlobRule "build/".toList ++ expandGlobRule "!build/keep.txt".toList)
        (fsList [FSEntry.dir "build".toList (fsList [FSEntry.file "keep.txt".toList])]) [],
      isStart ["build".toList] (splitOnChar '/' v) = true →
        splitOnChar '/' v = ["build".toList]) ∧
    (∀ a : List Str, isStart ["build".toList] a = true → a ≠ ["build".toList] →
      subnodeAt (buildTree (expandGlobRule "build/".toList ++ expandGlobRule "!build/keep.txt".toList)
        (fsList [FSEntry.dir "build".toList (fsList [FSEntry.file "keep.txt".toList])])) a = none) ∧
    (∀ (a : List Str) (f : Str),
      isStart ["build".toList] (a ++ [f]) = true → a ++ [f] ≠ ["build".toList] →
      hasFileAt (buildTree (expandGlobRule "build/".toList ++ expandGlobRule "!build/keep.txt".toList)
        (fsList [FSEntry.dir "build".toList (fsList [FSEntry.file "keep.txt".toList])])) a f = false)) :=
  ⟨⟨by decide, by decide, by decide, by decide, by decide⟩,
    excluded_dir_pruned
      (expandGlobRule "build/".toList ++ expandGlobRule "!build/keep.txt".toList)
      (fsList [FSEntry.dir "build".toList (fsList [FSEntry.file "keep.txt".toList])])
      ["build".toList] (by decide) (by decide) (by decide) (by decide)⟩

/-- C6: every non-root node the tree builder materializes lies on the
directory chain of some included file, so a directory whose recursive scan
yields no included file (for instance one containing only excluded files)
produces no node in the final tree. -/
theorem lazy_node_materialization (rules : List CompiledRule) (fs : FSList) (a : List Str)
    (hne : a ≠ []) (hnode : (subnodeAt (buildTree rules fs) a).isSome = true) :
    ∃ r ∈ includedFiles rules fs [], isStart a (splitOnChar '/' r).dropLast = true := by
  rcases subnodeAt_walkDir_origin rules fs [] (createNode []) a hnode with h | h
  · rw [subnodeAt_createNode _ _ hne] at h
    exact absurd h (by simp)
  · exact h

/-- Witness for C6: under no rules, the node `a` exists in the tree of
`a/x.txt` and the included file `a/x.txt` accounts for it. -/
theorem lazy_node_materialization_w :
    ((["a".toList] : List Str) ≠ [] ∧
      (subnodeAt (buildTree []
        (fsList [FSEntry.dir "a".toList (fsList [FSEntry.file "x.txt".toList])]))
        ["a".toList]).isSome = true) ∧
    ∃ r ∈ includedFiles [] (fsList [FSEntry.dir "a".toList (fsList [FSEntry.file "x.txt".toList])]) [],
      isStart ["a".toList] (splitOnChar '/' r).dropLast = true :=
  ⟨⟨by decide, by decide⟩,
    lazy_node_materialization []
      (fsList [FSEntry.dir "a".toList (fsList [FSEntry.file "x.txt".toList])])
      ["a".toList] (by decide) (by decide)⟩

/-- C10: `insertPath` on an empty part list is the identity; it leaves
every subtree off the inserted path's directory chain untouched; and it
never removes a node or a file — every address resolvable before is
resolvable after, with the old files and child keys still present. -/
theorem insertPath_frame (root : Node) (parts : List Str) :
    insertPath root [] = root ∧
    (∀ a : List Str, isStart a parts.dropLast = false →
      subnodeAt (insertPath root parts) a = subnodeAt root a) ∧
    (∀ (a : List Str) (n : Node), subnodeAt root a = some n →
      ∃ m : Node, subnodeAt (insertPath root parts) a = some m ∧
        (∀ f ∈ n.files, f ∈ m.files) ∧
        ∀ k : Str, (getChild n.children k).isSome = true →
          (getChild m.children k).isSome = true) :=
  ⟨rfl, fun a h => subnodeAt_insertPath_off parts root a h,
    fun a n h => insertPath_preserves parts root a n h⟩

/-- Witness for C10: inserting `b/y.txt` into a tree already holding
`a/x.txt` leaves the subtree at `a` unchanged, and the root keeps its
child `a`. -/
theorem insertPath_frame_w :
    (isStart ["a".toList] (["b".toList, "y.txt".toList] : List Str).dropLast = false ∧
      subnodeAt (insertPath (createNode []) ["a".toList, "x.txt".toList]) [] =
        some (insertPath (createNode []) ["a".toList, "x.txt".toList])) ∧
    (subnodeAt (insertPath (insertPath (createNode []) ["a".toList, "x.txt".toList])
        ["b".toList, "y.txt".toList]) ["a".toList] =
      subnodeAt (insertPath (createNode []) ["a".toList, "x.txt".toList]) ["a".toList]) ∧
    ∃ m : Node,
      subnodeAt (insertPath (insertPath (createNode []) ["a".toList, "x.txt".toList])
        ["b".toList, "y.txt".toList]) [] = some m ∧
      (∀ f ∈ (insertPath (createNode []) ["a".toList, "x.txt".toList]).files, f ∈ m.files) ∧
      ∀ k : Str,
        (getChild (insertPath (createNode []) ["a".toList, "x.txt".toList]).children k).isSome = true →
        (getChild m.children k).isSome = true :=
  ⟨⟨by decide, rfl⟩,
    (insertPath_frame (insertPath (createNode []) ["a".toList, "x.txt".toList])
      ["b".toList, "y.txt".toList]).2.1 ["a".toList] (by decide),
    (insertPath_frame (insertPath (createNode []) ["a".toList, "x.txt".toList])
      ["b".toList, "y.txt".toList]).2.2 []
      (insertPath (createNode []) ["a".toList, "x.txt".toList]) rfl⟩

end GenToc
